import Mathlib

/-!
Verification development for the RAG core of the Farmer Advisory Chatbot.

The definitions below are a shallow embedding of the Python sources:

* `backend/rag/document_processor.py` (`DocumentProcessor.chunk_text`,
  `_split_sentences`, `clean_text`),
* `backend/rag/vectorstore.py` (`VectorStore.add_vector`, `add_vectors`,
  `search`, `save`, `load`, `get_stats`),
* `backend/rag/rag_service.py` (`RAGService.process_and_store_document`),
* `backend/services/rag_enhancer.py` (`EnhancedRAGService.retrieve_with_citations`,
  `_calculate_confidence`, `should_generate_answer`),
* `backend/config/constants.py` (`LANGUAGE_CHUNK_CONFIG`).

Modelling conventions: Python floats are modelled by exact rationals (`ℚ`);
Python `int(x)` (truncation toward zero) is `intTrunc`; Python dictionaries
carrying mixed-type metadata are association lists `List (String × Value)`;
a raised-and-propagated exception is an `Except.error` / `Option.some` error
component, and a method that swallows exceptions is modelled by matching on
that component exactly as the corresponding `try`/`except` block does.
FAISS `IndexFlatL2` returns squared Euclidean distances and, on a store of
`N` vectors, `min(k, N)` valid (non-negative) indices ordered by
non-decreasing distance; `searchHits` models this with a stable sort by
distance over all stored vectors.
-/

set_option maxRecDepth 20000

namespace FarmerRag

/-- A Python value stored in a metadata dictionary. Only strings, numbers and
(for the `document_metadata` field, which no modelled operation ever inspects)
flat string tables occur in the modelled pipeline. -/
inductive Value where
  | str (s : String)
  | num (q : ℚ)
  | table (entries : List (String × String))
deriving DecidableEq

/-- A Python dict with string keys, as an insertion-ordered association list. -/
abbrev Dict := List (String × Value)

/-- Dictionary lookup: `d.get(k)` returning `None` when absent. -/
def Dict.get? (d : Dict) (k : String) : Option Value :=
  match d with
  | [] => none
  | (k', v) :: rest => if k' = k then some v else Dict.get? rest k

/-- Dictionary assignment `d[k] = v`: overwrite the existing entry for `k`,
or append a new entry (Python dicts preserve insertion order). -/
def Dict.set (d : Dict) (k : String) (v : Value) : Dict :=
  match d with
  | [] => [(k, v)]
  | (k', v') :: rest => if k' = k then (k, v) :: rest else (k', v') :: Dict.set rest k v

/-- Python truthiness of a metadata value (`if result.get("document_name")`). -/
def Value.truthy : Value → Bool
  | .str s => !s.isEmpty
  | .num q => q != 0
  | .table d => !d.isEmpty

/-- Rendering of a metadata value inside an f-string. Strings render as
themselves and the integers that occur in the pipeline (`chunk_index`) render
as their decimal digits; the rendering of other numbers and of tables is
abstracted, since no modelled claim inspects it. -/
def Value.display : Value → String
  | .str s => s
  | .num q => if q.den = 1 then toString q.num else toString q.num ++ "/" ++ toString q.den
  | .table _ => "table"

/-- Python `int(x)` on a float: truncation toward zero. -/
def intTrunc (q : ℚ) : Int := if 0 ≤ q then ⌊q⌋ else -⌊-q⌋

/-! ### Text utilities (`DocumentProcessor`), at the character-list level -/

/-- A sentence-terminal character of `_split_sentences` (`re.split(r'[.!?]+', text)`). -/
def isTerminalChar (c : Char) : Bool := c = '.' || c = '!' || c = '?'

/-- How a non-whitespace character `c` extends the splitting of the
remaining characters `cs`: it either starts a fresh word (when `cs` begins
with whitespace or is exhausted) or is prepended to the word that starts at
the head of `cs`. -/
def glueWord (c : Char) (cs : List Char) (rest : List (List Char)) : List (List Char) :=
  match cs with
  | [] => [[c]]
  | d :: _ =>
    if d.isWhitespace then [c] :: rest
    else
      match rest with
      | [] => [[c]]
      | w :: ws => (c :: w) :: ws

/-- Python `str.split()` with no argument: split on runs of whitespace,
dropping empty pieces. -/
def splitWordsChars : List Char → List (List Char)
  | [] => []
  | c :: cs =>
    if c.isWhitespace then splitWordsChars cs
    else glueWord c cs (splitWordsChars cs)

/-- Splitting at each single terminal character. `re.split(r'[.!?]+', text)`
splits at maximal runs of terminators; the only difference from splitting at
each terminator is extra empty segments between consecutive terminators, and
`_split_sentences` filters out every segment that strips to empty, so the
filtered results coincide. -/
def splitTermChars : List Char → List (List Char)
  | [] => [[]]
  | c :: cs =>
    if isTerminalChar c then [] :: splitTermChars cs
    else
      match splitTermChars cs with
      | [] => [[c]]
      | seg :: rest => (c :: seg) :: rest

/-- Python `str.strip()`: drop leading and trailing whitespace. -/
def stripChars (l : List Char) : List Char :=
  ((l.dropWhile Char.isWhitespace).reverse.dropWhile Char.isWhitespace).reverse

/-- Python `" ".join(words)` at the character level. -/
def joinWordsChars : List (List Char) → List Char
  | [] => []
  | [w] => w
  | w :: ws => w ++ ' ' :: joinWordsChars ws

/-! ### Text utilities, at the string level -/

/-- Python `sentence.split()`. -/
def pySplit (s : String) : List String := (splitWordsChars s.data).map String.mk

/-- Number of whitespace-separated words of a string. -/
def wordCount (s : String) : Nat := (pySplit s).length

/-- Python `s.strip()`. -/
def stripStr (s : String) : String := String.mk (stripChars s.data)

/-- Python `" ".join(ws)`. -/
def joinWords (ws : List String) : String := String.mk (joinWordsChars (ws.map String.data))

/-- Embedding of `DocumentProcessor._split_sentences`: split on sentence terminators,
strip each piece, keep the non-empty ones. -/
def split_sentences (text : String) : List String :=
  (((splitTermChars text.data).map stripChars).filter (fun seg => seg ≠ [])).map String.mk

/-- A character kept by `clean_text`'s allow-list `[^\w\s\n।.!?,-]`
(`\w` is modelled as ASCII alphanumerics plus underscore). -/
def allowedChar (c : Char) : Bool :=
  c.isAlphanum || c = '_' || c.isWhitespace || c = '\n' || c = '।' ||
    c = '.' || c = '!' || c = '?' || c = ',' || c = '-'

/-- Embedding of `DocumentProcessor.clean_text`: whitespace normalisation
(`" ".join(text.split())`) followed by removal of disallowed characters. -/
def clean_text (text : String) : String :=
  String.mk ((joinWordsChars (splitWordsChars text.data)).filter allowedChar)

/-! ### Chunking (`DocumentProcessor.chunk_text`) -/

/-- The table `LANGUAGE_CHUNK_CONFIG` from `backend/config/constants.py`:
`(chunk_size, overlap)` per supported language. -/
def LANGUAGE_CHUNK_CONFIG : String → Option (Nat × Nat)
  | "en" => some (500, 50)
  | "hi" => some (300, 30)
  | "mr" => some (350, 35)
  | _ => none

/-- Embedding of `LANGUAGE_CHUNK_CONFIG.get(language, LANGUAGE_CHUNK_CONFIG["en"])`. -/
def chunkConfig (language : String) : Nat × Nat :=
  (LANGUAGE_CHUNK_CONFIG language).getD (500, 50)

/-- State of the sentence-accumulation loop of `chunk_text`: the chunks
emitted so far and the words accumulated for the current chunk. The Python
variable `current_length` always equals `len(current_chunk)` (it is increased
by `len(words)` on extension and recomputed as `len(current_chunk)` on reseed),
so it is not tracked separately. -/
structure ChunkState where
  chunks : List (List String)
  current : List String
deriving DecidableEq

/-- One iteration of the `for sentence in sentences` loop of `chunk_text`:
`words = sentence.split()`; if the words still fit, extend the accumulator,
otherwise emit the accumulator (when non-empty) and reseed with its last
`overlap_words = min(overlap, current_length)` words (`current_chunk[-overlap_words:]`
when `overlap_words > 0`, else the empty seed) followed by the new words. -/
def chunkStep (chunk_size overlap : Nat) (st : ChunkState) (sentence : String) : ChunkState :=
  if st.current.length + (pySplit sentence).length ≤ chunk_size then
    { st with current := st.current ++ pySplit sentence }
  else
    { chunks := if st.current.isEmpty then st.chunks else st.chunks ++ [st.current]
      current := (if 0 < min overlap st.current.length then
        st.current.drop (st.current.length - min overlap st.current.length) else []) ++
        pySplit sentence }

/-- The whole accumulation loop of `chunk_text`, including the final
`if current_chunk: chunks.append(...)`, producing chunks as word lists. -/
def chunkLoop (chunk_size overlap : Nat) (sentences : List String) : List (List String) :=
  let st := sentences.foldl (chunkStep chunk_size overlap) ⟨[], []⟩
  if st.current.isEmpty then st.chunks else st.chunks ++ [st.current]

/-- Embedding of `DocumentProcessor.chunk_text text language`: the guard on empty or
whitespace-only text, the per-language configuration lookup, sentence
splitting, the accumulation loop, and the final
`[c.strip() for c in chunks if c.strip()]`. -/
def chunk_text (text language : String) : List String :=
  if stripStr text = "" then []
  else
    (((chunkLoop (chunkConfig language).1 (chunkConfig language).2
      (split_sentences text)).map joinWords).map stripStr).filter (fun c => c ≠ "")

/-! ### Vector store (`VectorStore`) -/

/-- In-memory state of a `VectorStore`: the configured dimension, the FAISS
flat index contents (`index.ntotal = vectors.length`) and the parallel
metadata list. The store path only matters for disk persistence and is not
part of the in-memory model. -/
structure VectorStore where
  embedding_dim : Nat
  vectors : List (List ℚ)
  metadata : List Dict
deriving DecidableEq

/-- The count invariant: `len(self.metadata) == self.index.ntotal`. -/
def VectorStore.wf (vs : VectorStore) : Prop := vs.metadata.length = vs.vectors.length

instance (vs : VectorStore) : Decidable vs.wf :=
  inferInstanceAs (Decidable (vs.metadata.length = vs.vectors.length))

/-- Embedding of `VectorStore.add_vector`: validate the vector length, then append to the
index and the metadata list. The error component is `some msg` exactly when
the Python method raises; the returned store is the state after the call. -/
def add_vector (vs : VectorStore) (vector : List ℚ) (meta : Dict) :
    VectorStore × Option String :=
  if vector.isEmpty || vector.length != vs.embedding_dim then
    (vs, some ("Vector dimension mismatch: expected " ++ toString vs.embedding_dim ++
      ", got " ++ toString vector.length))
  else
    ({ vs with vectors := vs.vectors ++ [vector], metadata := vs.metadata ++ [meta] }, none)

/-- The `for vector, metadata in zip(vectors, metadatas)` loop of
`add_vectors`: sequential `add_vector` calls, stopping at (and propagating)
the first failure while keeping the mutations already performed. -/
def addVectorsLoop (vs : VectorStore) : List (List ℚ × Dict) → VectorStore × Option String
  | [] => (vs, none)
  | (v, m) :: rest =>
    match add_vector vs v m with
    | (vs', none) => addVectorsLoop vs' rest
    | (vs', some e) => (vs', some e)

/-- Embedding of `VectorStore.add_vectors`. -/
def add_vectors (vs : VectorStore) (vectors : List (List ℚ)) (metadatas : List Dict) :
    VectorStore × Option String :=
  if vectors.length != metadatas.length then
    (vs, some "Mismatch between vectors and metadatas count")
  else addVectorsLoop vs (vectors.zip metadatas)

/-- Squared Euclidean distance, as returned by FAISS `IndexFlatL2.search`. -/
def l2sq (u v : List ℚ) : ℚ := ((u.zip v).map (fun p => (p.1 - p.2) * (p.1 - p.2))).sum

/-- Ordering of `(index, distance)` pairs by distance. -/
def distLE (a b : Nat × ℚ) : Prop := a.2 ≤ b.2

instance : DecidableRel distLE := fun a b => inferInstanceAs (Decidable (a.2 ≤ b.2))

instance : IsTotal (Nat × ℚ) distLE := ⟨fun a b => le_total a.2 b.2⟩

instance : IsTrans (Nat × ℚ) distLE := ⟨fun _ _ _ h h' => le_trans h h'⟩

/-- The result construction of `VectorStore.search` on a non-empty store with
a well-dimensioned query: the `min(top_k, ntotal)` nearest entries by
non-decreasing (squared) distance, each rendered as a copy of its metadata
dict with `distance` and `similarity_score` assigned. -/
def searchHits (vs : VectorStore) (q : List ℚ) (top_k : Nat) : List Dict :=
  let scored := vs.vectors.enum.map (fun p => (p.1, l2sq q p.2))
  let ranked := (List.insertionSort distLE scored).take (min top_k vs.vectors.length)
  ranked.map (fun p =>
    ((vs.metadata.getD p.1 []).set "distance" (Value.num p.2)).set "similarity_score"
      (Value.num (1 / (1 + p.2))))

/-- The `try` body of `VectorStore.search`: empty store short-circuit, query
dimension validation (the raised `ValueError`), then the hit construction. -/
def searchBody (vs : VectorStore) (q : List ℚ) (top_k : Nat) : Except String (List Dict) :=
  if vs.vectors.length = 0 then Except.ok []
  else if q.length != vs.embedding_dim then Except.error "Query vector dimension mismatch"
  else Except.ok (searchHits vs q top_k)

/-- Embedding of `VectorStore.search` as the caller observes it: the surrounding
`except` clause turns any raised error into an empty result list. -/
def search (vs : VectorStore) (q : List ℚ) (top_k : Nat) : List Dict :=
  match searchBody vs q top_k with
  | Except.ok r => r
  | Except.error _ => []

/-- The statistics reported by `VectorStore.get_stats` (the store path entry
is a constant of the store and is omitted from the model). -/
structure Stats where
  total_vectors : Nat
  embedding_dimension : Nat
deriving DecidableEq

/-- Embedding of `VectorStore.get_stats`. -/
def get_stats (vs : VectorStore) : Stats := ⟨vs.vectors.length, vs.embedding_dim⟩

/-- The pair of artifacts written by `save`: the index file and the pickled
metadata file. -/
structure Artifacts where
  index_file : List (List ℚ)
  meta_file : List Dict
deriving DecidableEq

/-- Embedding of `VectorStore.save`: write both artifacts; in-memory state is unchanged. -/
def save (vs : VectorStore) : Artifacts := ⟨vs.vectors, vs.metadata⟩

/-- Embedding of `VectorStore.load`: replace the index and the metadata wholesale from the
artifact pair. -/
def load (vs : VectorStore) (a : Artifacts) : VectorStore :=
  { vs with vectors := a.index_file, metadata := a.meta_file }

/-! ### Ingestion (`RAGService.process_and_store_document`) -/

/-- The metadata dict built for each chunk by `process_and_store_document`. -/
def ingestMetadata (chunk language : String) (idx : Nat) (dm : List (String × String)) : Dict :=
  [("text", Value.str chunk), ("language", Value.str language),
   ("chunk_index", Value.num idx), ("document_metadata", Value.table dm)]

/-- The `for idx, (chunk, embedding) in enumerate(zip(chunks, embeddings))`
loop: each element carries its index, text and embedding; a failing
`add_vector` propagates, keeping earlier additions. -/
def storeChunks (vs : VectorStore) (language : String) (dm : List (String × String)) :
    List (Nat × String × List ℚ) → VectorStore × Option String
  | [] => (vs, none)
  | (idx, chunk, emb) :: rest =>
    match add_vector vs emb (ingestMetadata chunk language idx dm) with
    | (vs', none) => storeChunks vs' language dm rest
    | (vs', some e) => (vs', some e)

/-- Embedding of `RAGService.process_and_store_document`, parametrised by the external
embedder (`EmbeddingService.embed_texts`). Returns the store state after the
call together with the returned chunk count or the propagated error. `save`
writes to disk and does not change in-memory state. -/
def process_and_store_document (embed : List String → List (List ℚ)) (vs : VectorStore)
    (text language : String) (dm : List (String × String)) :
    VectorStore × Except String Nat :=
  if (chunk_text (clean_text text) language).isEmpty then (vs, Except.ok 0)
  else
    match storeChunks vs language dm
        (((chunk_text (clean_text text) language).zip
          (embed (chunk_text (clean_text text) language))).enum.map
          (fun p => (p.1, p.2.1, p.2.2))) with
    | (vs', none) => (vs', Except.ok (chunk_text (clean_text text) language).length)
    | (vs', some e) => (vs', Except.error e)

/-! ### Confidence scoring (`EnhancedRAGService`) -/

/-- The metadata-quality component of `_calculate_confidence`:
`10 if result.get("document_name") else 5` (Python truthiness: an absent key
yields `None`, which is falsy, as is an empty string). -/
def metadataBonus (result : Dict) : Int :=
  match result.get? "document_name" with
  | some v => if v.truthy then 10 else 5
  | none => 5

/-- The value used for `result.get("similarity", 0)` in arithmetic context:
`some 0` when the key is absent, the number when it is numeric, and `none`
when it is non-numeric (in Python the multiplication then raises `TypeError`,
which the surrounding `except` turns into the fallback confidence 50). -/
def simValue (result : Dict) : Option ℚ :=
  match result.get? "similarity" with
  | none => some 0
  | some (Value.num q) => some q
  | some _ => none

/-- Embedding of `EnhancedRAGService._calculate_confidence`:
`similarity_score = min(100, similarity*100) * 0.6`,
`rank_score = ((total - rank) / total) * 100 * 0.3`,
`metadata_score = 10 if result.get("document_name") else 5`, then
`min(100, max(0, int(similarity_score + rank_score + metadata_score)))`.
`total = 0` makes the Python rank term raise `ZeroDivisionError`, caught by
the `except` returning 50. -/
def calculate_confidence (result : Dict) (rank total : Nat) : Int :=
  if total = 0 then 50
  else
    match simValue result with
    | none => 50
    | some s =>
      min 100 (max 0 (intTrunc (min 100 (s * 100) * (6 / 10) +
        (((total : ℚ) - (rank : ℚ)) / (total : ℚ)) * 100 * (3 / 10) +
        (metadataBonus result : ℚ))))

/-- One entry of the `sources` list built by `retrieve_with_citations`. -/
structure SourceEntry where
  text : Value
  confidence : Int
  similarity : Value
  rank : Nat
  document : Value
deriving DecidableEq

/-- Embedding of `EnhancedRAGService._format_context_with_citations`. -/
def format_context (sources : List SourceEntry) : String :=
  String.intercalate "\n\n" (sources.map (fun s =>
    s.text.display ++ "\n[Source " ++ toString s.rank ++ ": " ++ s.document.display ++
      " (Confidence: " ++ toString s.confidence ++ "%)]"))

/-- The structure returned by `retrieve_with_citations`. -/
structure RetrievalWithCitations where
  context : String
  sources : List SourceEntry
  average_confidence : Int
deriving DecidableEq

/-- Embedding of `EnhancedRAGService.retrieve_with_citations`, parametrised directly by
the `results` list obtained from `rag_service.retrieve_context` (query
embedding and search are modelled separately). `average_confidence` is
`int(total_confidence / len(sources))`, a float division then truncated. -/
def retrieve_with_citations (results : List Dict) : RetrievalWithCitations :=
  if results.isEmpty then ⟨"", [], 0⟩
  else
    let n := results.length
    let sources := results.enum.map (fun p =>
      { text := (p.2.get? "text").getD (Value.str "")
        confidence := calculate_confidence p.2 (p.1 + 1) n
        similarity := (p.2.get? "similarity").getD (Value.num 0)
        rank := p.1 + 1
        document := (p.2.get? "document_name").getD
          (Value.str ("Document " ++ ((p.2.get? "chunk_index").getD (Value.num 1)).display))
        : SourceEntry })
    let total_confidence := (sources.map SourceEntry.confidence).sum
    ⟨format_context sources, sources, intTrunc ((total_confidence : ℚ) / (sources.length : ℚ))⟩

/-- Embedding of `EnhancedRAGService.should_generate_answer confidence threshold`. -/
def should_generate_answer (confidence threshold : Int) : Bool × String :=
  if confidence ≥ threshold then (true, "Sufficient confidence in available knowledge")
  else (false, "Confidence (" ++ toString confidence ++ "%) below threshold (" ++
    toString threshold ++ "%). May provide inaccurate information.")

/-- The per-hit confidence blend exactly as the specification words it:
`0.6 * min(100, similarity*100) + 0.3 * ((total-rank)/total)*100 +
metadataBonus`, with `metadataBonus = 10` if the hit carries a document-name
field else `5`, the result clamped to `[0,100]`. Stated from the spec for
comparison against `calculate_confidence`. -/
def specConfidenceBlend (s : ℚ) (rank total : Nat) (hasDocField : Bool) : ℚ :=
  min 100 (max 0 ((6 / 10) * min 100 (s * 100) +
    (3 / 10) * ((((total : ℚ) - (rank : ℚ)) / (total : ℚ)) * 100) +
    (if hasDocField then 10 else 5)))

/-- The distance recorded in a search hit. -/
def distOf (hit : Dict) : ℚ :=
  match hit.get? "distance" with
  | some (Value.num d) => d
  | _ => 0

/-! ### Dictionary lemmas -/

theorem Dict.get_set_same (d : Dict) (k : String) (v : Value) :
    (d.set k v).get? k = some v := by
  induction d with
  | nil => simp [Dict.set, Dict.get?]
  | cons e rest ih =>
    obtain ⟨k', v'⟩ := e
    by_cases h : k' = k
    · simp [Dict.set, h, Dict.get?]
    · simp [Dict.set, h, Dict.get?, ih]

theorem Dict.get_set_ne (d : Dict) (k k' : String) (v : Value) (h : k ≠ k') :
    (d.set k v).get? k' = d.get? k' := by
  induction d with
  | nil => simp [Dict.set, Dict.get?, h]
  | cons e rest ih =>
    obtain ⟨k'', v''⟩ := e
    by_cases hk : k'' = k
    · subst hk
      simp [Dict.set, Dict.get?, h, ih]
    · simp [Dict.set, hk, Dict.get?, ih]

/-! ### Word-splitting lemmas -/

/-- Goodness of a word at the character level: non-empty and free of
whitespace, as every piece produced by `str.split()` is. -/
def goodChars (w : List Char) : Prop := w ≠ [] ∧ ∀ c ∈ w, c.isWhitespace = false

theorem splitWordsChars_good (l : List Char) :
    ∀ w ∈ splitWordsChars l, goodChars w := by
  induction l with
  | nil => simp [splitWordsChars]
  | cons c cs ih =>
    by_cases hc : c.isWhitespace
    · simpa [splitWordsChars, hc] using ih
    · rw [splitWordsChars, if_neg hc]
      cases cs with
      | nil =>
        intro w hw
        simp only [glueWord, List.mem_singleton] at hw
        exact hw ▸ ⟨by simp, by simpa using hc⟩
      | cons d t =>
        by_cases hd : d.isWhitespace
        · simp only [glueWord, hd, if_true]
          intro w hw
          rcases List.mem_cons.mp hw with h | h
          · exact h ▸ ⟨by simp, by simpa using hc⟩
          · exact ih w h
        · rcases hrest : splitWordsChars (d :: t) with _ | ⟨w0, ws0⟩
          · intro w hw
            simp [glueWord, hd, hrest] at hw
            exact hw ▸ ⟨by simp, by simpa using hc⟩
          · intro w hw
            simp only [glueWord, hd, hrest] at hw
            rw [if_neg (by simp)] at hw
            rcases List.mem_cons.mp hw with h | h
            · subst h
              have h0 := ih w0 (by rw [hrest]; exact List.mem_cons_self _ _)
              refine ⟨by simp, ?_⟩
              intro x hx
              rcases List.mem_cons.mp hx with hx | hx
              · simpa [hx] using hc
              · exact h0.2 x hx
            · exact ih w (by rw [hrest]; exact List.mem_cons_of_mem _ h)

theorem splitWordsChars_word_append (w l : List Char) (hw : goodChars w)
    (hl : l = [] ∨ ∃ d t, l = d :: t ∧ d.isWhitespace = true) :
    splitWordsChars (w ++ l) = w :: splitWordsChars l := by
  induction w with
  | nil => exact absurd rfl hw.1
  | cons c w' ih =>
    have hc : c.isWhitespace = false := hw.2 c (List.mem_cons_self _ _)
    cases w' with
    | nil =>
      rcases hl with h | ⟨d, t, h, hd⟩
      · subst h
        simp [splitWordsChars, glueWord, hc]
      · subst h
        rw [List.singleton_append, splitWordsChars, if_neg (by simp [hc])]
        simp [glueWord, hd]
    | cons c2 w2 =>
      have hgood : goodChars (c2 :: w2) :=
        ⟨by simp, fun x hx => hw.2 x (List.mem_cons_of_mem _ hx)⟩
      have ihr := ih hgood
      have hc2 : c2.isWhitespace = false := hgood.2 c2 (List.mem_cons_self _ _)
      rw [List.cons_append, splitWordsChars, if_neg (by simp [hc])]
      have harr : (c2 :: w2) ++ l = c2 :: (w2 ++ l) := by simp
      rw [harr] at ihr ⊢
      simp [glueWord, hc2, ihr]

theorem splitWordsChars_join (cls : List (List Char)) (h : ∀ w ∈ cls, goodChars w) :
    splitWordsChars (joinWordsChars cls) = cls := by
  induction cls with
  | nil => rfl
  | cons w rest ih =>
    cases rest with
    | nil =>
      have : joinWordsChars [w] = w ++ [] := by simp [joinWordsChars]
      rw [this, splitWordsChars_word_append w [] (h w (List.mem_cons_self _ _)) (Or.inl rfl)]
      rfl
    | cons w2 rest2 =>
      have hjoin : joinWordsChars (w :: w2 :: rest2) = w ++ ' ' :: joinWordsChars (w2 :: rest2) :=
        rfl
      rw [hjoin, splitWordsChars_word_append w _ (h w (List.mem_cons_self _ _))
        (Or.inr ⟨' ', _, rfl, by decide⟩)]
      have : splitWordsChars (' ' :: joinWordsChars (w2 :: rest2)) =
          splitWordsChars (joinWordsChars (w2 :: rest2)) := by
        rw [splitWordsChars, if_pos (by decide)]
      rw [this, ih (fun x hx => h x (List.mem_cons_of_mem _ hx))]

/-! ### Strip and join lemmas -/

theorem dropWhile_eq_self_of_head (p : Char → Bool) (l : List Char)
    (h : ∀ c, l.head? = some c → p c = false) : l.dropWhile p = l := by
  cases l with
  | nil => rfl
  | cons a t => rw [List.dropWhile_cons, if_neg (by simp [h a rfl])]

theorem stripChars_eq_self (l : List Char)
    (h1 : ∀ c, l.head? = some c → c.isWhitespace = false)
    (h2 : ∀ c, l.getLast? = some c → c.isWhitespace = false) :
    stripChars l = l := by
  unfold stripChars
  rw [dropWhile_eq_self_of_head _ l h1]
  rw [dropWhile_eq_self_of_head _ l.reverse (by simpa [List.head?_reverse] using h2)]
  exact List.reverse_reverse l

theorem joinWordsChars_head? (w : List Char) (rest : List (List Char)) (hw : w ≠ []) :
    (joinWordsChars (w :: rest)).head? = w.head? := by
  cases rest with
  | nil => rfl
  | cons w2 rest2 =>
    have : joinWordsChars (w :: w2 :: rest2) = w ++ ' ' :: joinWordsChars (w2 :: rest2) := rfl
    rw [this, List.head?_append_of_ne_nil _ hw]

theorem joinWordsChars_ne_nil (w : List Char) (rest : List (List Char)) (hw : w ≠ []) :
    joinWordsChars (w :: rest) ≠ [] := by
  have hh := joinWordsChars_head? w rest hw
  intro hcontra
  rw [hcontra] at hh
  cases w with
  | nil => exact hw rfl
  | cons a t => simp at hh

theorem joinWordsChars_getLast? (cls : List (List Char)) (hne : cls ≠ [])
    (h : ∀ w ∈ cls, w ≠ []) :
    ∃ w, cls.getLast? = some w ∧ (joinWordsChars cls).getLast? = w.getLast? := by
  induction cls with
  | nil => exact absurd rfl hne
  | cons w rest ih =>
    cases rest with
    | nil => exact ⟨w, rfl, rfl⟩
    | cons w2 rest2 =>
      obtain ⟨wl, hwl, hjoin⟩ := ih (by simp) (fun x hx => h x (List.mem_cons_of_mem _ hx))
      refine ⟨wl, by simpa using hwl, ?_⟩
      have hstep : joinWordsChars (w :: w2 :: rest2) = w ++ ' ' :: joinWordsChars (w2 :: rest2) :=
        rfl
      rw [hstep, List.getLast?_append]
      cases hJ : joinWordsChars (w2 :: rest2) with
      | nil => exact absurd hJ (joinWordsChars_ne_nil w2 rest2 (h w2 (by simp)))
      | cons j J' =>
        rw [hJ] at hjoin
        obtain ⟨g, hg⟩ := Option.isSome_iff_exists.mp
          (List.getLast?_isSome.mpr (by simp) : ((j :: J').getLast?).isSome = true)
        rw [List.getLast?_cons_cons, hg]
        have hor : (some g).or w.getLast? = some g := by simp
        rw [hor, ← hg, hjoin]

/-! ### String-level bridge lemmas -/

/-- Goodness of a word at the string level. -/
def goodWordStr (w : String) : Prop := w ≠ "" ∧ ∀ c ∈ w.data, c.isWhitespace = false

theorem goodWordStr_mk (cl : List Char) (h : goodChars cl) : goodWordStr (String.mk cl) := by
  refine ⟨fun hcontra => h.1 ?_, h.2⟩
  exact congrArg String.data hcontra

theorem goodChars_of_goodWordStr (w : String) (h : goodWordStr w) : goodChars w.data := by
  refine ⟨fun hcontra => h.1 (String.ext_iff.mpr hcontra), h.2⟩

theorem pySplit_good (s : String) : ∀ w ∈ pySplit s, goodWordStr w := by
  intro w hw
  obtain ⟨cl, hcl, rfl⟩ := List.mem_map.mp hw
  exact goodWordStr_mk cl (splitWordsChars_good s.data cl hcl)

theorem pySplit_joinWords (ws : List String) (h : ∀ w ∈ ws, goodWordStr w) :
    pySplit (joinWords ws) = ws := by
  unfold pySplit joinWords
  have hdata : (String.mk (joinWordsChars (ws.map String.data))).data =
      joinWordsChars (ws.map String.data) := rfl
  have hgood : ∀ cl ∈ ws.map String.data, goodChars cl := by
    intro cl hcl
    obtain ⟨w, hw, rfl⟩ := List.mem_map.mp hcl
    exact goodChars_of_goodWordStr w (h w hw)
  rw [hdata, splitWordsChars_join (ws.map String.data) hgood, List.map_map]
  have hcomp : String.mk ∘ String.data = id := funext fun s => rfl
  rw [hcomp, List.map_id]

theorem wordCount_joinWords (ws : List String) (h : ∀ w ∈ ws, goodWordStr w) :
    wordCount (joinWords ws) = ws.length := by
  rw [wordCount, pySplit_joinWords ws h]

theorem stripStr_joinWords (ws : List String) (hne : ws ≠ [])
    (h : ∀ w ∈ ws, goodWordStr w) :
    stripStr (joinWords ws) = joinWords ws ∧ joinWords ws ≠ "" := by
  obtain ⟨w, rest, rfl⟩ : ∃ w rest, ws = w :: rest := by
    cases ws with
    | nil => exact absurd rfl hne
    | cons w rest => exact ⟨w, rest, rfl⟩
  have hwdata : w.data ≠ [] :=
    (goodChars_of_goodWordStr w (h w (List.mem_cons_self _ _))).1
  have hne2 : joinWordsChars ((w :: rest).map String.data) ≠ [] := by
    simpa using joinWordsChars_ne_nil w.data (rest.map String.data) hwdata
  constructor
  · unfold stripStr joinWords
    congr 1
    apply stripChars_eq_self
    · intro c hc
      have hh := joinWordsChars_head? w.data (rest.map String.data) hwdata
      rw [show ((String.mk (joinWordsChars ((w :: rest).map String.data))).data) =
        joinWordsChars ((w :: rest).map String.data) from rfl] at hc
      rw [show ((w :: rest).map String.data) = w.data :: rest.map String.data from rfl] at hc
      rw [hh] at hc
      exact (h w (List.mem_cons_self _ _)).2 c (List.mem_of_mem_head? hc)
    · intro c hc
      rw [show ((String.mk (joinWordsChars ((w :: rest).map String.data))).data) =
        joinWordsChars ((w :: rest).map String.data) from rfl] at hc
      have hwne : ∀ x ∈ (w :: rest).map String.data, x ≠ [] := by
        intro x hx
        obtain ⟨u, hu, rfl⟩ := List.mem_map.mp hx
        exact (goodChars_of_goodWordStr u (h u hu)).1
      obtain ⟨wl, hwl, hlast⟩ := joinWordsChars_getLast? ((w :: rest).map String.data)
        (by simp) hwne
      rw [hlast] at hc
      obtain ⟨u, hu, rfl⟩ := List.mem_map.mp (List.mem_of_mem_getLast? hwl)
      exact (h u hu).2 c (List.mem_of_mem_getLast? hc)
  · intro hcontra
    exact hne2 (congrArg String.data hcontra)

/-! ### The chunk-accumulation invariant -/

/-- Size characterisation of an accumulated or emitted chunk: it is within
the nominal size, or it consists of an overlap seed of at most `o` words
followed by the words of one whole sentence of the input. -/
def sizeOk (cs o : Nat) (allS : List String) (c : List String) : Prop :=
  c.length ≤ cs ∨ ∃ seed s, s ∈ allS ∧ c = seed ++ pySplit s ∧ seed.length ≤ o

/-- The overlap link between an emitted chunk `a` and any chunk or
accumulator `b` seeded from it: `b` starts with the last `min o |a|` words
of `a`. -/
def overlapLinked (o : Nat) (a b : List String) : Prop :=
  b.take (min o a.length) = a.drop (a.length - min o a.length)

/-- The invariant maintained by the sentence-accumulation loop of
`chunk_text`. -/
structure ChunkInv (cs o : Nat) (allS : List String) (st : ChunkState) : Prop where
  chunks_ne : ∀ c ∈ st.chunks, c ≠ []
  chunks_size : ∀ c ∈ st.chunks, sizeOk cs o allS c
  cur_size : sizeOk cs o allS st.current
  chunks_chain : List.Chain' (overlapLinked o) st.chunks
  link : ∀ prev, st.chunks.getLast? = some prev →
    min o prev.length ≤ st.current.length ∧
    st.current.take (min o prev.length) = prev.drop (prev.length - min o prev.length)
  chunks_words : ∀ c ∈ st.chunks, ∀ w ∈ c, goodWordStr w
  cur_words : ∀ w ∈ st.current, goodWordStr w

theorem chunkStep_inv (cs o : Nat) (allS : List String) (st : ChunkState) (s : String)
    (hs : s ∈ allS) (hinv : ChunkInv cs o allS st) :
    ChunkInv cs o allS (chunkStep cs o st s) := by
  unfold chunkStep
  by_cases hfit : st.current.length + (pySplit s).length ≤ cs
  · rw [if_pos hfit]
    refine ⟨hinv.chunks_ne, hinv.chunks_size, ?_, hinv.chunks_chain, ?_, hinv.chunks_words, ?_⟩
    · exact Or.inl (by simpa using hfit)
    · intro prev hprev
      obtain ⟨h1, h2⟩ := hinv.link prev hprev
      refine ⟨le_trans h1 (by simp), ?_⟩
      rw [List.take_append_of_le_length h1, h2]
    · intro w hw
      rcases List.mem_append.mp hw with h | h
      · exact hinv.cur_words w h
      · exact pySplit_good s w h
  · rw [if_neg hfit]
    by_cases hemp : st.current.isEmpty
    · have hcur : st.current = [] := by
        cases hc : st.current with
        | nil => rfl
        | cons a t => rw [hc] at hemp; simp [List.isEmpty] at hemp
      rw [if_pos hemp]
      have hseed : (if 0 < min o st.current.length then
          st.current.drop (st.current.length - min o st.current.length) else []) = [] := by
        rw [hcur]; simp
      rw [hseed]
      refine ⟨hinv.chunks_ne, hinv.chunks_size, ?_, hinv.chunks_chain, ?_, hinv.chunks_words, ?_⟩
      · exact Or.inr ⟨[], s, hs, by simp, by simp⟩
      · intro prev hprev
        obtain ⟨h1, h2⟩ := hinv.link prev hprev
        rw [hcur] at h1
        have h0 : min o prev.length = 0 := Nat.le_zero.mp (by simpa using h1)
        rw [h0]
        simp [List.drop_length]
      · intro w hw
        simp only [List.nil_append] at hw
        exact pySplit_good s w hw
    · have hcurne : st.current ≠ [] := by
        cases hc : st.current with
        | nil => rw [hc] at hemp; simp [List.isEmpty] at hemp
        | cons a t => simp
      rw [if_neg hemp]
      set ow := min o st.current.length with how
      set seed := (if 0 < ow then st.current.drop (st.current.length - ow) else []) with hseed
      have howle : ow ≤ st.current.length := by rw [how]; exact min_le_right _ _
      have hseedlen : seed.length ≤ o := by
        rw [hseed]
        by_cases h0 : 0 < ow
        · rw [if_pos h0, List.length_drop]
          have : st.current.length - (st.current.length - ow) = ow :=
            Nat.sub_sub_self howle
          rw [this, how]
          exact min_le_left _ _
        · rw [if_neg h0]; simp
      have hseedcur : ∀ w ∈ seed, w ∈ st.current := by
        intro w hw
        rw [hseed] at hw
        by_cases h0 : 0 < ow
        · rw [if_pos h0] at hw
          exact (List.drop_sublist _ _).mem hw
        · rw [if_neg h0] at hw; simp at hw
      refine ⟨?_, ?_, ?_, ?_, ?_, ?_, ?_⟩
      · intro c hc
        rcases List.mem_append.mp hc with h | h
        · exact hinv.chunks_ne c h
        · simpa [List.mem_singleton.mp h] using hcurne
      · intro c hc
        rcases List.mem_append.mp hc with h | h
        · exact hinv.chunks_size c h
        · exact List.mem_singleton.mp h ▸ hinv.cur_size
      · exact Or.inr ⟨seed, s, hs, rfl, hseedlen⟩
      · rw [List.chain'_append]
        refine ⟨hinv.chunks_chain, List.chain'_singleton _, ?_⟩
        intro x hx y hy
        simp only [List.head?_cons, Option.mem_def, Option.some.injEq] at hy
        subst hy
        exact (hinv.link x hx).2
      · intro prev hprev
        rw [List.getLast?_concat] at hprev
        cases hprev
        rw [hseed, how]
        constructor
        · by_cases h0 : 0 < min o st.current.length
          · rw [if_pos h0]
            simp only [List.length_append, List.length_drop,
              Nat.sub_sub_self (min_le_right o st.current.length)]
            exact Nat.le_add_right _ _
          · rw [Nat.eq_zero_of_not_pos h0]
            exact Nat.zero_le _
        · by_cases h0 : 0 < min o st.current.length
          · rw [if_pos h0]
            have hlen : (st.current.drop (st.current.length - min o st.current.length)).length
                = min o st.current.length := by
              rw [List.length_drop, Nat.sub_sub_self (min_le_right _ _)]
            rw [List.take_append_of_le_length (le_of_eq hlen.symm),
              List.take_of_length_le (le_of_eq hlen)]
          · rw [Nat.eq_zero_of_not_pos h0]
            simp [List.drop_length]
      · intro c hc
        rcases List.mem_append.mp hc with h | h
        · exact hinv.chunks_words c h
        · exact List.mem_singleton.mp h ▸ hinv.cur_words
      · intro w hw
        rcases List.mem_append.mp hw with h | h
        · exact hinv.cur_words w (hseedcur w h)
        · exact pySplit_good s w h

theorem chunkFold_inv (cs o : Nat) (allS : List String) :
    ∀ (ss : List String) (st : ChunkState), (∀ x ∈ ss, x ∈ allS) → ChunkInv cs o allS st →
      ChunkInv cs o allS (ss.foldl (chunkStep cs o) st) := by
  intro ss
  induction ss with
  | nil => intro st _ hinv; exact hinv
  | cons s rest ih =>
    intro st hmem hinv
    rw [List.foldl_cons]
    exact ih _ (fun x hx => hmem x (List.mem_cons_of_mem _ hx))
      (chunkStep_inv cs o allS st s (hmem s (List.mem_cons_self _ _)) hinv)

theorem chunkInv_init (cs o : Nat) (allS : List String) :
    ChunkInv cs o allS ⟨[], []⟩ := by
  refine ⟨?_, ?_, Or.inl (by simp), ?_, ?_, ?_, ?_⟩ <;> simp [List.chain'_nil]

theorem chunkLoop_inv (cs o : Nat) (sents : List String) :
    ∀ c ∈ chunkLoop cs o sents,
      (c ≠ [] ∧ sizeOk cs o sents c ∧ ∀ w ∈ c, goodWordStr w) := by
  have hinv := chunkFold_inv cs o sents sents ⟨[], []⟩ (fun x hx => hx)
    (chunkInv_init cs o sents)
  intro c hc
  unfold chunkLoop at hc
  by_cases hemp : (sents.foldl (chunkStep cs o) ⟨[], []⟩).current.isEmpty
  · rw [if_pos hemp] at hc
    exact ⟨hinv.chunks_ne c hc, hinv.chunks_size c hc, hinv.chunks_words c hc⟩
  · rw [if_neg hemp] at hc
    rcases List.mem_append.mp hc with h | h
    · exact ⟨hinv.chunks_ne c h, hinv.chunks_size c h, hinv.chunks_words c h⟩
    · have hceq := List.mem_singleton.mp h
      subst hceq
      have hcurne : (sents.foldl (chunkStep cs o) ⟨[], []⟩).current ≠ [] := by
        intro hcontra
        rw [hcontra] at hemp
        simp [List.isEmpty] at hemp
      exact ⟨hcurne, hinv.cur_size, hinv.cur_words⟩

theorem chunkLoop_chain (cs o : Nat) (sents : List String) :
    List.Chain' (overlapLinked o) (chunkLoop cs o sents) := by
  have hinv := chunkFold_inv cs o sents sents ⟨[], []⟩ (fun x hx => hx)
    (chunkInv_init cs o sents)
  unfold chunkLoop
  by_cases hemp : (sents.foldl (chunkStep cs o) ⟨[], []⟩).current.isEmpty
  · rw [if_pos hemp]; exact hinv.chunks_chain
  · rw [if_neg hemp]
    rw [List.chain'_append]
    refine ⟨hinv.chunks_chain, List.chain'_singleton _, ?_⟩
    intro x hx y hy
    simp only [List.head?_cons, Option.mem_def, Option.some.injEq] at hy
    subst hy
    exact (hinv.link x hx).2

/-- On non-blank input, `chunk_text` is the space-join of the word-list
chunks computed by the accumulation loop: stripping is the identity on the
joined chunks and the final filter keeps all of them. -/
theorem chunk_text_eq_map (text language : String) (h : ¬ stripStr text = "") :
    chunk_text text language =
      (chunkLoop (chunkConfig language).1 (chunkConfig language).2
        (split_sentences text)).map joinWords := by
  unfold chunk_text
  rw [if_neg h]
  have hmap : ((chunkLoop (chunkConfig language).1 (chunkConfig language).2
      (split_sentences text)).map joinWords).map stripStr =
      (chunkLoop (chunkConfig language).1 (chunkConfig language).2
        (split_sentences text)).map joinWords := by
    rw [List.map_map]
    apply List.map_congr_left
    intro c hc
    obtain ⟨hne, _, hwords⟩ := chunkLoop_inv _ _ _ c hc
    exact (stripStr_joinWords c hne hwords).1
  rw [hmap, List.filter_eq_self.mpr]
  intro a ha
  obtain ⟨c, hc, rfl⟩ := List.mem_map.mp ha
  obtain ⟨hne, _, hwords⟩ := chunkLoop_inv _ _ _ c hc
  simpa using (stripStr_joinWords c hne hwords).2

/-! ### Vector-store lemmas -/

theorem add_vector_wf (vs : VectorStore) (v : List ℚ) (m : Dict) (h : vs.wf) :
    ((add_vector vs v m).1).wf := by
  unfold add_vector
  by_cases hc : (v.isEmpty || v.length != vs.embedding_dim) = true
  · rw [if_pos hc]; exact h
  · rw [if_neg hc]
    unfold VectorStore.wf at h ⊢
    simp [h]

theorem add_vector_reject (vs : VectorStore) (v : List ℚ) (m : Dict)
    (h : v.length ≠ vs.embedding_dim) :
    (add_vector vs v m).1 = vs ∧ (add_vector vs v m).2.isSome = true := by
  unfold add_vector
  have hcond : (v.isEmpty || v.length != vs.embedding_dim) = true := by
    simp [h]
  rw [if_pos hcond]
  exact ⟨rfl, rfl⟩

theorem addVectorsLoop_wf (l : List (List ℚ × Dict)) :
    ∀ vs : VectorStore, vs.wf → ((addVectorsLoop vs l).1).wf := by
  induction l with
  | nil => intro vs h; exact h
  | cons p rest ih =>
    intro vs h
    obtain ⟨v, m⟩ := p
    show ((match add_vector vs v m with
      | (vs', none) => addVectorsLoop vs' rest
      | (vs', some e) => (vs', some e)).1).wf
    rcases hav : add_vector vs v m with ⟨vs', e⟩
    have hwf' : vs'.wf := by
      have hw := add_vector_wf vs v m h
      rw [hav] at hw
      exact hw
    cases e with
    | none => exact ih vs' hwf'
    | some err => exact hwf'

theorem add_vectors_wf (vs : VectorStore) (vecs : List (List ℚ)) (ms : List Dict)
    (h : vs.wf) : ((add_vectors vs vecs ms).1).wf := by
  unfold add_vectors
  by_cases hc : (vecs.length != ms.length) = true
  · rw [if_pos hc]; exact h
  · rw [if_neg hc]; exact addVectorsLoop_wf _ vs h

theorem storeChunks_wf (l : List (Nat × String × List ℚ)) (language : String)
    (dm : List (String × String)) :
    ∀ vs : VectorStore, vs.wf → ((storeChunks vs language dm l).1).wf := by
  induction l with
  | nil => intro vs h; exact h
  | cons p rest ih =>
    intro vs h
    obtain ⟨idx, chunk, emb⟩ := p
    show ((match add_vector vs emb (ingestMetadata chunk language idx dm) with
      | (vs', none) => storeChunks vs' language dm rest
      | (vs', some e) => (vs', some e)).1).wf
    rcases hav : add_vector vs emb (ingestMetadata chunk language idx dm) with ⟨vs', e⟩
    have hwf' : vs'.wf := by
      have hw := add_vector_wf vs emb (ingestMetadata chunk language idx dm) h
      rw [hav] at hw
      exact hw
    cases e with
    | none => exact ih vs' hwf'
    | some err => exact hwf'

theorem distOf_hit (m : Dict) (d : ℚ) :
    distOf ((m.set "distance" (Value.num d)).set "similarity_score"
      (Value.num (1 / (1 + d)))) = d := by
  unfold distOf
  rw [Dict.get_set_ne _ _ _ _ (by decide), Dict.get_set_same]

theorem hit_get_preserved (m : Dict) (d : ℚ) (k : String)
    (h1 : k ≠ "distance") (h2 : k ≠ "similarity_score") :
    ((m.set "distance" (Value.num d)).set "similarity_score"
      (Value.num (1 / (1 + d)))).get? k = m.get? k := by
  rw [Dict.get_set_ne _ _ _ _ (Ne.symm h2), Dict.get_set_ne _ _ _ _ (Ne.symm h1)]

theorem searchHits_shape (vs : VectorStore) (q : List ℚ) (k : Nat) :
    ∀ hit ∈ searchHits vs q k, ∃ m d, (m ∈ vs.metadata ∨ m = []) ∧
      hit = (m.set "distance" (Value.num d)).set "similarity_score"
        (Value.num (1 / (1 + d))) := by
  intro hit hhit
  unfold searchHits at hhit
  obtain ⟨p, _, rfl⟩ := List.mem_map.mp hhit
  refine ⟨vs.metadata.getD p.1 [], p.2, ?_, rfl⟩
  rw [List.getD_eq_get?]
  cases hm : vs.metadata.get? p.1 with
  | none => right; rfl
  | some x => left; simpa using List.get?_mem hm

theorem searchHits_length (vs : VectorStore) (q : List ℚ) (k : Nat) :
    (searchHits vs q k).length = min k vs.vectors.length := by
  unfold searchHits
  rw [List.length_map, List.length_take, List.length_insertionSort, List.length_map,
    List.enum_length]
  omega

theorem searchHits_sorted (vs : VectorStore) (q : List ℚ) (k : Nat) :
    List.Sorted (fun a b => distOf a ≤ distOf b) (searchHits vs q k) := by
  unfold searchHits
  apply List.Pairwise.map
  · intro a b hab
    rw [distOf_hit, distOf_hit]
    exact hab
  · exact List.Pairwise.sublist (List.take_sublist _ _) (List.sorted_insertionSort distLE _)

theorem searchHits_similarity (vs : VectorStore) (q : List ℚ) (k : Nat) :
    ∀ hit ∈ searchHits vs q k,
      hit.get? "similarity_score" = some (Value.num (1 / (1 + distOf hit))) := by
  intro hit hhit
  obtain ⟨m, d, _, rfl⟩ := searchHits_shape vs q k hit hhit
  rw [distOf_hit, Dict.get_set_same]

/-! ### Confidence lemmas -/

theorem metadataBonus_bounds (d : Dict) :
    5 ≤ metadataBonus d ∧ metadataBonus d ≤ 10 := by
  unfold metadataBonus
  cases d.get? "document_name" with
  | none => exact ⟨le_refl _, by norm_num⟩
  | some v =>
    by_cases h : v.truthy = true
    · norm_num [h]
    · norm_num [h]

theorem metadataBonus_eq_elim (d : Dict) :
    metadataBonus d =
      if (d.get? "document_name").elim false Value.truthy = true then 10 else 5 := by
  unfold metadataBonus
  cases d.get? "document_name" with
  | none => simp [Option.elim]
  | some v => simp [Option.elim]

theorem intTrunc_le_of_lt (q : ℚ) (n : ℤ) (h0 : 0 ≤ n) (h : q < (n : ℚ) + 1) :
    intTrunc q ≤ n := by
  unfold intTrunc
  by_cases hq : 0 ≤ q
  · rw [if_pos hq]
    have : ⌊q⌋ < n + 1 := by
      rw [Int.floor_lt]
      push_cast
      exact h
    omega
  · rw [if_neg hq]
    have hneg : 0 ≤ ⌊-q⌋ := Int.floor_nonneg.mpr (by linarith [not_le.mp hq])
    omega

theorem calculate_confidence_bounds (result : Dict) (rank total : Nat) :
    0 ≤ calculate_confidence result rank total ∧
      calculate_confidence result rank total ≤ 100 := by
  unfold calculate_confidence
  by_cases ht : total = 0
  · rw [if_pos ht]; norm_num
  · rw [if_neg ht]
    cases simValue result with
    | none => norm_num
    | some s =>
      constructor
      · exact le_min (by norm_num) (le_max_left _ _)
      · exact min_le_left _ _

theorem chain'_get? {α : Type _} (R : α → α → Prop) (l : List α) (h : List.Chain' R l)
    (i : Nat) (a b : α) (ha : l.get? i = some a) (hb : l.get? (i + 1) = some b) : R a b := by
  induction l generalizing i with
  | nil => simp at ha
  | cons x t ih =>
    cases i with
    | zero =>
      cases t with
      | nil => simp at hb
      | cons y t2 =>
        have ha' : some x = some a := ha
        have hb' : some y = some b := hb
        cases ha'
        cases hb'
        exact (List.chain'_cons.mp h).1
    | succ n =>
      exact ih h.tail n ha hb

/-! ### Claim C1: chunk sizes -/

/-- A sentence of `n` copies of the word `w`. -/
def repWords (w : String) (n : Nat) : String := String.intercalate " " (List.replicate n w)

/-- A document for the Hindi configuration `(chunk_size 300, overlap 30)`:
a 30-word sentence followed by a 290-word sentence. -/
def c1Text : String := repWords "a" 30 ++ ". " ++ repWords "b" 290

/-- C1, counterexample: under the Hindi configuration `(300, 30)`,
`chunk_text` produces from `c1Text` a chunk of 320 words — the 30-word
overlap seed plus the whole 290-word second sentence — although no single
sentence of the input exceeds 300 words. This refutes the claim that a chunk
can exceed `target_size` only by being exactly one oversized sentence. -/
theorem C1_counterexample :
    LANGUAGE_CHUNK_CONFIG "hi" = some (300, 30) ∧
    ∃ c ∈ chunk_text c1Text "hi", 300 < wordCount c ∧
      ∀ s ∈ split_sentences c1Text, wordCount s ≤ 300 := by decide

/-- C1, amended: for any supported language with configuration
`(chunk_size, overlap)`, every chunk returned by `chunk_text` either has at
most `chunk_size` words, or consists of an overlap seed of at most `overlap`
words followed by the words of exactly one (unsplit) sentence of the input —
so a chunk can exceed the nominal size even when no sentence alone does. -/
theorem C1_amended_chunk_size (text language : String) (cs o : Nat)
    (hconf : LANGUAGE_CHUNK_CONFIG language = some (cs, o)) :
    ∀ c ∈ chunk_text text language,
      wordCount c ≤ cs ∨
      ∃ seed s, s ∈ split_sentences text ∧ pySplit c = seed ++ pySplit s ∧
        seed.length ≤ o := by
  intro c hc
  by_cases hstrip : stripStr text = ""
  · rw [chunk_text, if_pos hstrip] at hc
    simp at hc
  · rw [chunk_text_eq_map text language hstrip] at hc
    obtain ⟨cl, hcl, rfl⟩ := List.mem_map.mp hc
    obtain ⟨hne, hsize, hwords⟩ := chunkLoop_inv _ _ _ cl hcl
    have hcfg : chunkConfig language = (cs, o) := by rw [chunkConfig, hconf]; rfl
    rw [hcfg] at hsize
    rcases hsize with h | ⟨seed, s, hs, heq, hlen⟩
    · left
      rw [wordCount_joinWords cl hwords]
      exact h
    · right
      exact ⟨seed, s, hs, by rw [pySplit_joinWords cl hwords]; exact heq, hlen⟩

/-- C1, witness for the amended statement at a concrete input. -/
theorem C1_amended_witness :
    LANGUAGE_CHUNK_CONFIG "en" = some (500, 50) ∧ "a b" ∈ chunk_text "a. b" "en" ∧
    (wordCount "a b" ≤ 500 ∨
      ∃ seed s, s ∈ split_sentences "a. b" ∧ pySplit "a b" = seed ++ pySplit s ∧
        seed.length ≤ 50) :=
  ⟨by decide, by decide,
    C1_amended_chunk_size "a. b" "en" 500 50 (by decide) "a b" (by decide)⟩

/-! ### Claim C8: word overlap between adjacent chunks -/

/-- C8: for a supported language with positive configured overlap `o`, any
two adjacent chunks `ci, cj` returned by `chunk_text` with `ci` holding at
least `o` words satisfy: the first `o` words of `cj` are the last `o` words
of `ci`. -/
theorem C8_overlap_carries (text language : String) (cs o i : Nat) (ci cj : String)
    (hconf : LANGUAGE_CHUNK_CONFIG language = some (cs, o)) (ho : 0 < o)
    (hi : (chunk_text text language).get? i = some ci)
    (hj : (chunk_text text language).get? (i + 1) = some cj)
    (hw : o ≤ wordCount ci) :
    (pySplit cj).take o = (pySplit ci).drop (wordCount ci - o) := by
  by_cases hstrip : stripStr text = ""
  · rw [chunk_text, if_pos hstrip] at hi
    simp at hi
  · rw [chunk_text_eq_map text language hstrip] at hi hj
    rw [List.get?_map] at hi hj
    obtain ⟨cli, hcli, rfl⟩ := Option.map_eq_some'.mp hi
    obtain ⟨clj, hclj, rfl⟩ := Option.map_eq_some'.mp hj
    obtain ⟨_, _, hwordsi⟩ := chunkLoop_inv _ _ _ cli (List.get?_mem hcli)
    obtain ⟨_, _, hwordsj⟩ := chunkLoop_inv _ _ _ clj (List.get?_mem hclj)
    have hrel := chain'_get? _ _
      (chunkLoop_chain (chunkConfig language).1 (chunkConfig language).2
        (split_sentences text)) i cli clj hcli hclj
    have hcfg : chunkConfig language = (cs, o) := by rw [chunkConfig, hconf]; rfl
    rw [hcfg] at hrel
    unfold overlapLinked at hrel
    have hlen : wordCount (joinWords cli) = cli.length := wordCount_joinWords cli hwordsi
    have hmin : min o cli.length = o := min_eq_left (by rw [← hlen]; exact hw)
    rw [hmin] at hrel
    rw [pySplit_joinWords clj hwordsj, pySplit_joinWords cli hwordsi, hlen]
    exact hrel

/-- C8, witness: the two chunks produced from `c1Text` under the Hindi
configuration share their 30-word overlap. -/
theorem C8_overlap_witness :
    LANGUAGE_CHUNK_CONFIG "hi" = some (300, 30) ∧ 0 < 30 ∧
    (chunk_text c1Text "hi").get? 0 = some (repWords "a" 30) ∧
    (chunk_text c1Text "hi").get? 1 =
      some (repWords "a" 30 ++ " " ++ repWords "b" 290) ∧
    30 ≤ wordCount (repWords "a" 30) ∧
    (pySplit (repWords "a" 30 ++ " " ++ repWords "b" 290)).take 30 =
      (pySplit (repWords "a" 30)).drop (wordCount (repWords "a" 30) - 30) :=
  ⟨by decide, by decide, by decide, by decide, by decide,
    C8_overlap_carries c1Text "hi" 300 30 0 (repWords "a" 30)
      (repWords "a" 30 ++ " " ++ repWords "b" 290) (by decide) (by decide) (by decide)
      (by decide) (by decide)⟩

/-! ### Claim C4: the search result contract -/

theorem search_empty (vs : VectorStore) (q : List ℚ) (k : Nat) (hnil : vs.vectors = []) :
    search vs q k = [] := by
  unfold search searchBody
  rw [if_pos (by rw [hnil]; rfl)]

theorem search_eq_hits (vs : VectorStore) (q : List ℚ) (k : Nat)
    (hnil : vs.vectors ≠ []) (hq : q.length = vs.embedding_dim) :
    search vs q k = searchHits vs q k := by
  unfold search searchBody
  rw [if_neg (by simpa [List.length_eq_zero] using hnil), if_neg (by simp [hq])]

/-- C4: on a well-formed store with a query of the configured dimension,
`search` returns exactly `min k N` hits sorted by non-decreasing distance,
each carrying `similarity_score = 1 / (1 + distance)`; and on an empty store
`search` returns the empty list (for any query) instead of raising. -/
theorem C4_search_contract (vs : VectorStore) (q : List ℚ) (k : Nat)
    (hwf : vs.wf) (hq : q.length = vs.embedding_dim) :
    (search vs q k).length = min k vs.vectors.length ∧
    List.Sorted (fun a b => distOf a ≤ distOf b) (search vs q k) ∧
    (∀ hit ∈ search vs q k,
      hit.get? "similarity_score" = some (Value.num (1 / (1 + distOf hit)))) ∧
    (∀ (q' : List ℚ) (k' : Nat), vs.vectors = [] → search vs q' k' = []) := by
  by_cases hnil : vs.vectors = []
  · refine ⟨?_, ?_, ?_, fun q' k' h => search_empty vs q' k' h⟩
    · rw [search_empty vs q k hnil, hnil]
      simp
    · rw [search_empty vs q k hnil]
      exact List.sorted_nil
    · rw [search_empty vs q k hnil]
      intro hit h
      simp at h
  · rw [search_eq_hits vs q k hnil hq]
    exact ⟨searchHits_length vs q k, searchHits_sorted vs q k,
      searchHits_similarity vs q k, fun q' k' h => search_empty vs q' k' h⟩

/-- A two-entry store of dimension 1 for the C4 witness. -/
def c4Store : VectorStore :=
  ⟨1, [[0], [3]], [[("text", Value.str "a")], [("text", Value.str "b")]]⟩

/-- C4, witness at a concrete store and query. -/
theorem C4_search_witness :
    c4Store.wf ∧ [(1 : ℚ)].length = c4Store.embedding_dim ∧
    ((search c4Store [1] 5).length = min 5 c4Store.vectors.length ∧
      List.Sorted (fun a b => distOf a ≤ distOf b) (search c4Store [1] 5) ∧
      (∀ hit ∈ search c4Store [1] 5,
        hit.get? "similarity_score" = some (Value.num (1 / (1 + distOf hit)))) ∧
      (∀ (q' : List ℚ) (k' : Nat), c4Store.vectors = [] → search c4Store q' k' = [])) :=
  ⟨by decide, by decide, C4_search_contract c4Store [1] 5 (by decide) (by decide)⟩

/-! ### Claim C5: rejected adds leave the store unchanged -/

/-- C5: `add_vector` with a vector whose length differs from the configured
dimension raises (the error component is set) and leaves the store — in
particular `get_stats().total_vectors` — unchanged. -/
theorem C5_add_vector_rejects (vs : VectorStore) (v : List ℚ) (m : Dict)
    (h : v.length ≠ vs.embedding_dim) :
    (add_vector vs v m).1 = vs ∧ (add_vector vs v m).2.isSome = true ∧
    (get_stats (add_vector vs v m).1).total_vectors = (get_stats vs).total_vectors := by
  obtain ⟨h1, h2⟩ := add_vector_reject vs v m h
  exact ⟨h1, h2, by rw [h1]⟩

/-- An empty store of dimension 2 for the C5 witness. -/
def c5Store : VectorStore := ⟨2, [], []⟩

/-- C5, witness at a concrete store and mis-dimensioned vector. -/
theorem C5_add_vector_witness :
    [(1 : ℚ)].length ≠ c5Store.embedding_dim ∧
    ((add_vector c5Store [1] []).1 = c5Store ∧
      (add_vector c5Store [1] []).2.isSome = true ∧
      (get_stats (add_vector c5Store [1] []).1).total_vectors =
        (get_stats c5Store).total_vectors) :=
  ⟨by decide, C5_add_vector_rejects c5Store [1] [] (by decide)⟩

/-! ### Claim C6: the count invariant is preserved -/

/-- C6: `add_vector` (accepted or rejected), `add_vectors` (including a
batch that fails partway, whose earlier mutations are kept), and a
`save`/`load` round trip all preserve `len(metadata) == vector_count`.
`search` and `save` do not mutate the in-memory store at all in the model
(they are pure functions of it). -/
theorem C6_count_invariant_preserved :
    (∀ (vs : VectorStore) (v : List ℚ) (m : Dict), vs.wf → ((add_vector vs v m).1).wf) ∧
    (∀ (vs : VectorStore) (vecs : List (List ℚ)) (ms : List Dict), vs.wf →
      ((add_vectors vs vecs ms).1).wf) ∧
    (∀ vs vs' : VectorStore, vs.wf → (load vs' (save vs)).wf) :=
  ⟨add_vector_wf, add_vectors_wf, fun _ _ h => h⟩

/-- A one-entry store for the C6 witness. -/
def c6Store : VectorStore := ⟨1, [[0]], [[("text", Value.str "t")]]⟩

/-- C6, witness: a batch whose second vector has the wrong length fails
partway, and the store state after the failure still satisfies the
invariant. -/
theorem C6_invariant_witness :
    c6Store.wf ∧ ((add_vectors c6Store [[1], [2, 3]] [[], []]).1).wf ∧
    ((add_vectors c6Store [[1], [2, 3]] [[], []]).2).isSome = true :=
  ⟨by decide,
    C6_count_invariant_preserved.2.1 c6Store [[1], [2, 3]] [[], []] (by decide),
    by decide⟩

/-! ### Claim C7: a query dimension mismatch is swallowed, not propagated -/

/-- A one-entry store of dimension 2 for the C7 theorems. -/
def c7Store : VectorStore := ⟨2, [[0, 0]], [[("text", Value.str "t")]]⟩

/-- C7, counterexample: on a non-empty store, a query of the wrong dimension
makes the `try` body of `search` raise a `ValueError`, but the method's
`except` clause catches it and returns the empty list — the caller receives
an ordinary empty result, indistinguishable from "no matches", and no
validation error propagates. -/
theorem C7_counterexample :
    searchBody c7Store [1] 5 = Except.error "Query vector dimension mismatch" ∧
    search c7Store [1] 5 = [] ∧ c7Store.vectors ≠ [] :=
  ⟨rfl, rfl, by decide⟩

/-- C7, amended: on a non-empty store, a query whose length differs from the
configured dimension raises inside the `try` body, and `search` returns the
empty list to its caller (the error is logged and swallowed, and the store
is never mutated — `search` is a pure function of the store). -/
theorem C7_amended_error_swallowed (vs : VectorStore) (q : List ℚ) (k : Nat)
    (hne : vs.vectors ≠ []) (hq : q.length ≠ vs.embedding_dim) :
    searchBody vs q k = Except.error "Query vector dimension mismatch" ∧
    search vs q k = [] := by
  have h1 : searchBody vs q k = Except.error "Query vector dimension mismatch" := by
    unfold searchBody
    rw [if_neg (by simpa [List.length_eq_zero] using hne), if_pos (by simp [hq])]
  refine ⟨h1, ?_⟩
  unfold search
  rw [h1]

/-- C7, witness for the amended statement. -/
theorem C7_amended_witness :
    c7Store.vectors ≠ [] ∧ [(1 : ℚ)].length ≠ c7Store.embedding_dim ∧
    (searchBody c7Store [1] 5 = Except.error "Query vector dimension mismatch" ∧
      search c7Store [1] 5 = []) :=
  ⟨by decide, by decide, C7_amended_error_swallowed c7Store [1] 5 (by decide) (by decide)⟩

/-! ### Claim C9: ingestion of a blank document is a no-op returning 0 -/

/-- C9: when cleaning and chunking yield zero chunks, ingestion returns `0`,
the store is unchanged (for every possible embedder — so the embedder is
never consulted), and `total_vectors` is unchanged. -/
theorem C9_empty_chunking_no_ingest (embed : List String → List (List ℚ)) (vs : VectorStore)
    (text language : String) (dm : List (String × String))
    (h : chunk_text (clean_text text) language = []) :
    process_and_store_document embed vs text language dm = (vs, Except.ok 0) ∧
    get_stats ((process_and_store_document embed vs text language dm).1) = get_stats vs := by
  have h1 : process_and_store_document embed vs text language dm = (vs, Except.ok 0) := by
    unfold process_and_store_document
    rw [h]
    rfl
  exact ⟨h1, by rw [h1]⟩

/-- An empty store for the C9 witness. -/
def c9Store : VectorStore := ⟨1, [], []⟩

/-- C9, witness: an all-whitespace document yields zero chunks, and ingestion
returns `0` leaving the store untouched. -/
theorem C9_empty_ingest_witness :
    chunk_text (clean_text "   ") "en" = [] ∧
    (process_and_store_document (fun _ => []) c9Store "   " "en" [] =
      (c9Store, Except.ok 0) ∧
      get_stats ((process_and_store_document (fun _ => []) c9Store "   " "en" []).1) =
        get_stats c9Store) :=
  ⟨by decide, C9_empty_chunking_no_ingest (fun _ => []) c9Store "   " "en" [] (by decide)⟩

/-! ### Claim C2: pipeline hits carry no `similarity` key, capping confidence -/

theorem search_shape (vs : VectorStore) (q : List ℚ) (k : Nat) :
    ∀ hit ∈ search vs q k, ∃ m d, (m ∈ vs.metadata ∨ m = []) ∧
      hit = (m.set "distance" (Value.num d)).set "similarity_score"
        (Value.num (1 / (1 + d))) := by
  intro hit hhit
  unfold search at hhit
  cases hsb : searchBody vs q k with
  | error e => rw [hsb] at hhit; simp at hhit
  | ok r =>
    rw [hsb] at hhit
    unfold searchBody at hsb
    by_cases h0 : vs.vectors.length = 0
    · rw [if_pos h0] at hsb
      cases hsb
      simp at hhit
    · rw [if_neg h0] at hsb
      by_cases hd : (q.length != vs.embedding_dim) = true
      · rw [if_pos hd] at hsb
        exact Except.noConfusion hsb
      · rw [if_neg hd] at hsb
        cases hsb
        exact searchHits_shape vs q k hit hhit

theorem calculate_confidence_no_sim (hit : Dict) (r n : Nat) (hn : n ≠ 0)
    (hsim : hit.get? "similarity" = none) :
    calculate_confidence hit r n =
      min 100 (max 0 (intTrunc ((3 / 10) * ((((n : ℚ) - (r : ℚ)) / (n : ℚ)) * 100) +
        (metadataBonus hit : ℚ)))) := by
  have hsim0 : simValue hit = some 0 := by
    unfold simValue
    rw [hsim]
  unfold calculate_confidence
  rw [if_neg hn]
  simp only [hsim0]
  have harg : min (100 : ℚ) (0 * 100) * (6 / 10) +
      (((n : ℚ) - (r : ℚ)) / (n : ℚ)) * 100 * (3 / 10) + (metadataBonus hit : ℚ) =
      (3 / 10) * ((((n : ℚ) - (r : ℚ)) / (n : ℚ)) * 100) + (metadataBonus hit : ℚ) := by
    have h0 : min (100 : ℚ) (0 * 100) = 0 := by norm_num
    rw [h0]
    ring
  rw [harg]

theorem confidence_no_sim_le_39 (hit : Dict) (r n : Nat) (hn : 0 < n) (hr : 1 ≤ r)
    (hsim : hit.get? "similarity" = none) :
    calculate_confidence hit r n ≤ 39 := by
  rw [calculate_confidence_no_sim hit r n (Nat.pos_iff_ne_zero.mp hn) hsim]
  have hb := metadataBonus_bounds hit
  have hnq : (0 : ℚ) < (n : ℚ) := by exact_mod_cast hn
  have hfrac : ((n : ℚ) - (r : ℚ)) / (n : ℚ) < 1 := by
    rw [div_lt_one hnq]
    have h1 : (1 : ℚ) ≤ (r : ℚ) := by exact_mod_cast hr
    linarith
  have hb10 : (metadataBonus hit : ℚ) ≤ 10 := by exact_mod_cast hb.2
  have harg : (3 / 10 : ℚ) * ((((n : ℚ) - (r : ℚ)) / (n : ℚ)) * 100) +
      (metadataBonus hit : ℚ) < 40 := by
    have hrw : (3 / 10 : ℚ) * ((((n : ℚ) - (r : ℚ)) / (n : ℚ)) * 100) =
        30 * (((n : ℚ) - (r : ℚ)) / (n : ℚ)) := by ring
    rw [hrw]
    linarith
  have ht := intTrunc_le_of_lt ((3 / 10 : ℚ) * ((((n : ℚ) - (r : ℚ)) / (n : ℚ)) * 100) +
    (metadataBonus hit : ℚ)) 39 (by norm_num) (by push_cast; linarith)
  omega

theorem should_generate_answer_below (c t : Int) (h : c < t) :
    (should_generate_answer c t).1 = false := by
  unfold should_generate_answer
  rw [if_neg (by omega)]

/-- C2: every hit built by `search` over pipeline metadata (which carries
neither a `similarity` nor a `document_name` key) has `distance` and
`similarity_score` keys but no `similarity` key. Consequently the similarity
component of `_calculate_confidence` is 0 and the confidence at rank `r`
among `n` results equals
`min(100, max(0, int(0.3*((n-r)/n)*100 + metadataBonus)))`, is at most 39,
and always falls below the default `should_generate_answer` threshold 50. -/
theorem C2_pipeline_confidence_capped (vs : VectorStore) (q : List ℚ) (k : Nat)
    (hmeta : ∀ m ∈ vs.metadata,
      m.get? "similarity" = none ∧ m.get? "document_name" = none) :
    ∀ hit ∈ search vs q k,
      (hit.get? "distance").isSome = true ∧
      (hit.get? "similarity_score").isSome = true ∧
      hit.get? "similarity" = none ∧
      ∀ r n : Nat, 0 < n → 1 ≤ r →
        calculate_confidence hit r n =
          min 100 (max 0 (intTrunc ((3 / 10) * ((((n : ℚ) - (r : ℚ)) / (n : ℚ)) * 100) +
            (metadataBonus hit : ℚ)))) ∧
        calculate_confidence hit r n ≤ 39 ∧
        (should_generate_answer (calculate_confidence hit r n) 50).1 = false := by
  intro hit hhit
  obtain ⟨m, d, hm, rfl⟩ := search_shape vs q k hit hhit
  have hmnone : m.get? "similarity" = none ∧ m.get? "document_name" = none := by
    rcases hm with h | h
    · exact hmeta m h
    · rw [h]
      exact ⟨rfl, rfl⟩
  have hsimnone : ((m.set "distance" (Value.num d)).set "similarity_score"
      (Value.num (1 / (1 + d)))).get? "similarity" = none := by
    rw [hit_get_preserved m d "similarity" (by decide) (by decide), hmnone.1]
  refine ⟨?_, ?_, hsimnone, ?_⟩
  · rw [Dict.get_set_ne _ _ _ _ (by decide), Dict.get_set_same]
    rfl
  · rw [Dict.get_set_same]
    rfl
  · intro r n hn hr
    exact ⟨calculate_confidence_no_sim _ r n (Nat.pos_iff_ne_zero.mp hn) hsimnone,
      confidence_no_sim_le_39 _ r n hn hr hsimnone,
      should_generate_answer_below _ 50
        (by have := confidence_no_sim_le_39 _ r n hn hr hsimnone; omega)⟩

/-- A one-entry store holding pipeline metadata, for the C2 witness. -/
def c2Store : VectorStore := ⟨1, [[0]], [ingestMetadata "t" "en" 0 []]⟩

/-- The hit `search` produces from `c2Store` for the query `[0]`. -/
def c2Hit : Dict :=
  [("text", Value.str "t"), ("language", Value.str "en"), ("chunk_index", Value.num 0),
   ("document_metadata", Value.table []), ("distance", Value.num 0),
   ("similarity_score", Value.num 1)]

/-- C2, witness at a concrete pipeline store, query, rank and total. -/
theorem C2_pipeline_witness :
    (∀ m ∈ c2Store.metadata,
      m.get? "similarity" = none ∧ m.get? "document_name" = none) ∧
    c2Hit ∈ search c2Store [0] 1 ∧
    ((c2Hit.get? "distance").isSome = true ∧
      (c2Hit.get? "similarity_score").isSome = true ∧
      c2Hit.get? "similarity" = none ∧
      (calculate_confidence c2Hit 1 1 =
        min 100 (max 0 (intTrunc ((3 / 10) * ((((1 : ℚ) - (1 : ℚ)) / (1 : ℚ)) * 100) +
          (metadataBonus c2Hit : ℚ)))) ∧
        calculate_confidence c2Hit 1 1 ≤ 39 ∧
        (should_generate_answer (calculate_confidence c2Hit 1 1) 50).1 = false)) := by
  have hmeta : ∀ m ∈ c2Store.metadata,
      m.get? "similarity" = none ∧ m.get? "document_name" = none := by decide
  have hmem : c2Hit ∈ search c2Store [0] 1 := by
    simp [search, searchBody, searchHits, c2Store, c2Hit, ingestMetadata, l2sq,
      List.enum, List.enumFrom, List.insertionSort, Dict.set, List.getD]
  have hall := C2_pipeline_confidence_capped c2Store [0] 1 hmeta c2Hit hmem
  exact ⟨hmeta, hmem, hall.1, hall.2.1, hall.2.2.1,
    hall.2.2.2 1 1 (by decide) (by decide)⟩

/-! ### Claim C3: the confidence formula as the spec words it -/

/-- A hit carrying `similarity = 1.0` and an empty-string document name. -/
def c3Hit : Dict := [("similarity", Value.num 1), ("document_name", Value.str "")]

/-- C3, counterexample: for `c3Hit` at rank 1 of 4 the spec formula
(0.6·100 + 0.3·75 + 10, clamped) gives 92.5, but the code computes 87:
`int()` truncates the fractional blend, and the empty document name is falsy
in Python so it earns the metadata bonus 5, not 10. -/
theorem C3_counterexample :
    (c3Hit.get? "document_name").isSome = true ∧ simValue c3Hit = some 1 ∧
    calculate_confidence c3Hit 1 4 = 87 ∧
    specConfidenceBlend 1 1 4 true = 185 / 2 ∧
    ¬ ((calculate_confidence c3Hit 1 4 : ℚ) = specConfidenceBlend 1 1 4 true) := by
  have h1 : calculate_confidence c3Hit 1 4 = 87 := by
    simp +decide [calculate_confidence, simValue, Dict.get?, metadataBonus, Value.truthy,
      c3Hit]
    norm_num [intTrunc]
  have h2 : specConfidenceBlend 1 1 4 true = 185 / 2 := by
    unfold specConfidenceBlend
    norm_num
  refine ⟨by decide, by decide, h1, h2, ?_⟩
  rw [h1, h2]
  norm_num

/-- A hit carrying `similarity = 1.0` and a non-empty document name. -/
def c3SingleHit : Dict := [("similarity", Value.num 1), ("document_name", Value.str "Doc")]

/-- C3, amended: for a hit with numeric similarity `s` ranked `rank` among
`total > 0`, the confidence is the `int()`-truncation of
`0.6*min(100, s*100) + 0.3*((total-rank)/total)*100 + bonus` clamped to
`[0,100]`, where `bonus = 10` only if the hit carries a truthy (e.g.
non-empty) `document_name`, else `5`; the confidence always lies in
`[0,100]`; and for a single hit with `s = 1.0` and a document name present
both the confidence and the `average_confidence` equal 70. -/
theorem C3_amended_confidence_formula :
    (∀ (result : Dict) (rank total : Nat) (s : ℚ), total ≠ 0 → simValue result = some s →
      calculate_confidence result rank total =
        min 100 (max 0 (intTrunc ((6 / 10) * min 100 (s * 100) +
          (3 / 10) * ((((total : ℚ) - (rank : ℚ)) / (total : ℚ)) * 100) +
          (if (result.get? "document_name").elim false Value.truthy = true
            then (10 : ℚ) else 5))))) ∧
    (∀ (result : Dict) (rank total : Nat),
      0 ≤ calculate_confidence result rank total ∧
        calculate_confidence result rank total ≤ 100) ∧
    calculate_confidence c3SingleHit 1 1 = 70 ∧
    (retrieve_with_citations [c3SingleHit]).average_confidence = 70 := by
  refine ⟨?_, calculate_confidence_bounds, ?_, ?_⟩
  · intro result rank total s ht hsim
    unfold calculate_confidence
    rw [if_neg ht]
    simp only [hsim]
    have harg : min (100 : ℚ) (s * 100) * (6 / 10) +
        (((total : ℚ) - (rank : ℚ)) / (total : ℚ)) * 100 * (3 / 10) +
        (metadataBonus result : ℚ) =
        (6 / 10) * min 100 (s * 100) +
        (3 / 10) * ((((total : ℚ) - (rank : ℚ)) / (total : ℚ)) * 100) +
        (if (result.get? "document_name").elim false Value.truthy = true
          then (10 : ℚ) else 5) := by
      rw [metadataBonus_eq_elim result, apply_ite (fun z : ℤ => (z : ℚ))]
      push_cast
      ring
    rw [harg]
  · simp +decide [calculate_confidence, simValue, Dict.get?, metadataBonus, Value.truthy,
      c3SingleHit]
    norm_num [intTrunc]
  · simp +decide [retrieve_with_citations, calculate_confidence, simValue, Dict.get?,
      metadataBonus, Value.truthy, c3SingleHit, List.enum, List.enumFrom]
    norm_num [intTrunc]

/-- C3, witness for the amended formula at a concrete hit. -/
theorem C3_amended_witness :
    (1 : Nat) ≠ 0 ∧ simValue c3SingleHit = some 1 ∧
    calculate_confidence c3SingleHit 1 1 =
      min 100 (max 0 (intTrunc ((6 / 10) * min 100 ((1 : ℚ) * 100) +
        (3 / 10) * ((((1 : ℚ) - (1 : ℚ)) / (1 : ℚ)) * 100) +
        (if (c3SingleHit.get? "document_name").elim false Value.truthy = true
          then (10 : ℚ) else 5)))) :=
  ⟨by decide, by decide,
    C3_amended_confidence_formula.1 c3SingleHit 1 1 1 (by decide) (by decide)⟩

/-! ### Claim C10: the average confidence truncates, it does not round -/

/-- A strong hit: similarity 1.0 and a document name. -/
def c10Hit : Dict := [("similarity", Value.num 1), ("document_name", Value.str "D")]

/-- A weak hit: similarity 0 and no document name. -/
def c10LowHit : Dict := [("similarity", Value.num 0)]

/-- A result list whose per-hit confidences are 92, 85, 77, 5. -/
def c10Results : List Dict := [c10Hit, c10Hit, c10Hit, c10LowHit]

/-- C10, counterexample: the per-hit confidences for `c10Results` are
92, 85, 77 and 5; their arithmetic mean is 64.75, whose nearest integer is
65, but `average_confidence` is `int(259 / 4) = 64` — the code truncates the
mean rather than rounding it. -/
theorem C10_counterexample :
    ((retrieve_with_citations c10Results).sources.map SourceEntry.confidence) =
      [92, 85, 77, 5] ∧
    (retrieve_with_citations c10Results).average_confidence = 64 ∧
    round ((((retrieve_with_citations c10Results).sources.map
        SourceEntry.confidence).sum : ℚ) /
      (((retrieve_with_citations c10Results).sources.map
        SourceEntry.confidence).length : ℚ)) = 65 := by
  have h1 : ((retrieve_with_citations c10Results).sources.map SourceEntry.confidence) =
      [92, 85, 77, 5] := by
    simp +decide [retrieve_with_citations, calculate_confidence, simValue, Dict.get?,
      metadataBonus, Value.truthy, c10Results, c10Hit, c10LowHit, List.enum,
      List.enumFrom]
    norm_num [intTrunc]
  have h2 : (retrieve_with_citations c10Results).average_confidence = 64 := by
    simp +decide [retrieve_with_citations, calculate_confidence, simValue, Dict.get?,
      metadataBonus, Value.truthy, c10Results, c10Hit, c10LowHit, List.enum,
      List.enumFrom]
    norm_num [intTrunc]
  refine ⟨h1, h2, ?_⟩
  rw [h1]
  norm_num [round_eq]

/-- C10, amended: for every non-empty result list, `average_confidence` is
the arithmetic mean of the per-hit confidences truncated toward zero
(`int()`, equal to the floor since confidences are non-negative) — not
rounded to the nearest integer. -/
theorem C10_amended_average_truncated (results : List Dict) (h : results ≠ []) :
    (retrieve_with_citations results).average_confidence =
      intTrunc (((((retrieve_with_citations results).sources.map
          SourceEntry.confidence).sum : ℤ) : ℚ) /
        (((retrieve_with_citations results).sources.length : Nat) : ℚ)) := by
  unfold retrieve_with_citations
  rw [if_neg (by simpa [List.isEmpty_iff] using h)]

/-- C10, witness for the amended statement on a single hit. -/
theorem C10_amended_witness :
    ([c10Hit] : List Dict) ≠ [] ∧
    (retrieve_with_citations [c10Hit]).average_confidence =
      intTrunc (((((retrieve_with_citations [c10Hit]).sources.map
          SourceEntry.confidence).sum : ℤ) : ℚ) /
        (((retrieve_with_citations [c10Hit]).sources.length : Nat) : ℚ)) :=
  ⟨by decide, C10_amended_average_truncated [c10Hit] (by decide)⟩

end FarmerRag
